import Mathlib

/-!
Shallow embedding of the PGN ingestion and opening-classification pipeline
of the `che` repository (src/game-analyzer.js and src/chess-fetcher.js),
together with theorems checking the specification's claims against it.

Strings are modelled as Lean `String` and `List Char`; every JavaScript
regular expression used by the source is translated into an explicit
deterministic scanner that reproduces the regex engine's left-to-right,
greedy, first-alternative-wins behaviour (with explicit candidate lists
where the engine backtracks).  Scanning loops that advance by at least one
character per step are written with a fuel parameter instantiated to the
input length, which always suffices.
-/

namespace Che

/-! ## Character classes and basic string utilities -/

/-- JavaScript `\s` (the ASCII part, which is all the source ever feeds it). -/
def isSpaceChar (c : Char) : Bool :=
  c = ' ' || c = '\t' || c = '\n' || c = '\r' || c = '\x0b' || c = '\x0c'

/-- JavaScript `\w`: letters, digits, underscore. -/
def isWordChar (c : Char) : Bool :=
  c.isAlpha || c.isDigit || c = '_'

/-- `String.prototype.trim()`. -/
def jsTrim (s : String) : String :=
  String.mk (((s.data.dropWhile isSpaceChar).reverse.dropWhile isSpaceChar).reverse)

/-- Greedy `CLASS+`: a nonempty maximal run of characters satisfying `f`. -/
def span1 (f : Char → Bool) (cs : List Char) : Option (List Char × List Char) :=
  match cs.takeWhile f with
  | [] => none
  | t => some (t, cs.dropWhile f)

/-- Consume one expected character. -/
def expectChar (c : Char) : List Char → Option (List Char)
  | d :: cs => if d = c then some cs else none
  | [] => none

/-- Consume an expected literal piece of text. -/
def expectPfx (p : List Char) (cs : List Char) : Option (List Char) :=
  if p.isPrefixOf cs then some (cs.drop p.length) else none

/-- Index of the first occurrence of `sub` (JS `indexOf`), if any. -/
def findSubIdx (sub : List Char) : List Char → Option Nat
  | [] => if sub.isPrefixOf ([] : List Char) then some 0 else none
  | c :: cs =>
    if sub.isPrefixOf (c :: cs) then some 0 else (findSubIdx sub (c :: cs).tail).map (· + 1)

/-- `hay.includes(needle)` on character lists. -/
def containsSub (hay sub : List Char) : Bool :=
  (findSubIdx sub hay).isSome

/-- `String.prototype.includes`. -/
def strIncludes (s sub : String) : Bool :=
  containsSub s.data sub.data

/-- JS `String.prototype.split` with a plain-string separator, on character
lists: pieces between consecutive separator occurrences.  Fuel `cs.length`
suffices (the separator is never empty where this is used). -/
def splitOnSubF (sep : List Char) : Nat → List Char → List (List Char)
  | 0, cs => [cs]
  | _, [] => [[]]
  | fuel + 1, c :: cs =>
    if sep.isPrefixOf (c :: cs) && !sep.isEmpty then
      [] :: splitOnSubF sep fuel ((c :: cs).drop sep.length)
    else
      match splitOnSubF sep fuel cs with
      | [] => [[c]]
      | h :: t => (c :: h) :: t

/-- `s.split(sep)` for strings. -/
def jsSplit (s sep : String) : List String :=
  (splitOnSubF sep.data s.data.length s.data).map String.mk

/-- Digit run to a number, as `parseInt` does on an all-digit string. -/
def digitsToNat (ds : List Char) : Nat :=
  ds.foldl (fun n c => n * 10 + (c.toNat - '0'.toNat)) 0

/-- JavaScript-object property assignment on an association list with unique
keys: overwrite the (single) binding if present, otherwise append. -/
def mapSet {α : Type} : List (String × α) → String → α → List (String × α)
  | [], k, v => [(k, v)]
  | p :: m, k, v => if p.1 = k then (k, v) :: m else p :: mapSet m k v

/-- Property lookup on an association list. -/
def mapGet {α : Type} (m : List (String × α)) (k : String) : Option α :=
  (m.find? (fun p => p.1 == k)).map (·.2)

/-! ## src/game-analyzer.js — `parsePGN` -/

/-- One attempt of the header regex `\[(\w+)\s+"([^"]+)"\]` anchored at the
start of `cs`: `[`, a nonempty word run, nonempty whitespace, `"`, a nonempty
run of non-quote characters, `"`, `]`. -/
def tryTag (cs : List Char) : Option ((String × String) × List Char) := do
  let cs ← expectChar '[' cs
  let (name, cs) ← span1 isWordChar cs
  let (_, cs) ← span1 isSpaceChar cs
  let cs ← expectChar '"' cs
  let (v, cs) ← span1 (fun c => !(c = '"')) cs
  let cs ← expectChar '"' cs
  let cs ← expectChar ']' cs
  return ((String.mk name, String.mk v), cs)

/-- Global scan of the header regex (`exec` loop): at each position try the
pattern; on success emit the captured pair and continue after the match,
otherwise advance one character.  Every step consumes at least one character,
so fuel `cs.length` suffices. -/
def scanTagsF : Nat → List Char → List (String × String)
  | 0, _ => []
  | _, [] => []
  | fuel + 1, c :: cs =>
    match tryTag (c :: cs) with
    | some (p, rest) => p :: scanTagsF fuel rest
    | none => scanTagsF fuel cs

/-- All matches of the header regex over the whole text, in order. -/
def tagMatches (s : String) : List (String × String) :=
  scanTagsF s.data.length s.data

/-- The `headers` object of `parsePGN`: every regex match contributes one
assignment `headers[name] = value`. -/
def jsHeaders (pgn : String) : List (String × String) :=
  (tagMatches pgn).foldl (fun m p => mapSet m p.1 p.2) []

/-- Remove every `/\{[^}]*\}/` (resp. `/\([^)]*\)/`) occurrence: at an opening
delimiter, if a matching closer occurs later, drop through the first closer;
otherwise the character is kept.  Fuel `cs.length` suffices. -/
def removeDelimF (o c : Char) : Nat → List Char → List Char
  | 0, cs => cs
  | _, [] => []
  | fuel + 1, d :: cs =>
    if d = o then
      match cs.findIdx? (fun e => e = c) with
      | some i => removeDelimF o c fuel (cs.drop (i + 1))
      | none => d :: removeDelimF o c fuel cs
    else d :: removeDelimF o c fuel cs

/-- `movesText.replace(/\{[^}]*\}/g, '')`. -/
def removeBraces (cs : List Char) : List Char :=
  removeDelimF '\x7b' '\x7d' cs.length cs

/-- `.replace(/\([^)]*\)/g, '')`. -/
def removeParens (cs : List Char) : List Char :=
  removeDelimF '(' ')' cs.length cs

/-- `.replace(/\$\d+/g, '')`: drop `$` followed by a nonempty digit run. -/
def removeNagsF : Nat → List Char → List Char
  | 0, cs => cs
  | _, [] => []
  | fuel + 1, d :: cs =>
    if d = '$' then
      match span1 Char.isDigit cs with
      | some (_, rest) => removeNagsF fuel rest
      | none => d :: removeNagsF fuel cs
    else d :: removeNagsF fuel cs

/-- `.replace(/[!?]+/g, '')`: drop every `!` and `?`. -/
def removeBangs (cs : List Char) : List Char :=
  cs.filter (fun c => !(c = '!' || c = '?'))

/-- `.replace(/1-0|0-1|1\/2-1\/2|\*/g, '')`: remove every occurrence of a
result token, alternatives tried in source order at each position. -/
def removeResultsF : Nat → List Char → List Char
  | 0, cs => cs
  | _, [] => []
  | fuel + 1, d :: cs =>
    if ['1', '-', '0'].isPrefixOf (d :: cs) then removeResultsF fuel ((d :: cs).drop 3)
    else if ['0', '-', '1'].isPrefixOf (d :: cs) then removeResultsF fuel ((d :: cs).drop 3)
    else if ['1', '/', '2', '-', '1', '/', '2'].isPrefixOf (d :: cs) then
      removeResultsF fuel ((d :: cs).drop 7)
    else if d = '*' then removeResultsF fuel cs
    else d :: removeResultsF fuel cs

/-- `.replace(/\s+/g, ' ')`: collapse every whitespace run to one space. -/
def collapseWsF : Nat → List Char → List Char
  | 0, cs => cs
  | _, [] => []
  | fuel + 1, d :: cs =>
    if isSpaceChar d then ' ' :: collapseWsF fuel (cs.dropWhile isSpaceChar)
    else d :: collapseWsF fuel cs

/-- The whole clean-up chain applied to the collected move text, in source
order, ending with `trim()`. -/
def cleanMovesText (cs : List Char) : List Char :=
  (jsTrim (String.mk (collapseWsF cs.length
    (removeResultsF cs.length
      (removeBangs (removeNagsF cs.length (removeParens (removeBraces cs)))))))).data

/-- The move-token character class `[a-h1-8NBRQKOx=+#-]`. -/
def isMoveCls (c : Char) : Bool :=
  ('a' ≤ c && c ≤ 'h') || ('1' ≤ c && c ≤ '8') ||
  c = 'N' || c = 'B' || c = 'R' || c = 'Q' || c = 'K' || c = 'O' ||
  c = 'x' || c = '=' || c = '+' || c = '#' || c = '-'

/-- One attempt of `/\d+\.\s*([a-h1-8NBRQKOx=+#-]+)\s*([a-h1-8NBRQKOx=+#-]+)?/`
anchored at `cs`.  Both `\s*` runs are consumed by the match. -/
def tryMoveTok (cs : List Char) : Option ((String × Option String) × List Char) := do
  let (_, cs) ← span1 Char.isDigit cs
  let cs ← expectChar '.' cs
  let cs := cs.dropWhile isSpaceChar
  let (g1, cs) ← span1 isMoveCls cs
  let cs := cs.dropWhile isSpaceChar
  match span1 isMoveCls cs with
  | some (g2, rest) => return ((String.mk g1, some (String.mk g2)), rest)
  | none => return ((String.mk g1, none), cs)

/-- `exec` loop of the move-token regex; pushes `match[1]` and, when present,
`match[2]`. -/
def scanMoveToksF : Nat → List Char → List String
  | 0, _ => []
  | _, [] => []
  | fuel + 1, c :: cs =>
    match tryMoveTok (c :: cs) with
    | some ((g1, g2), rest) =>
      g1 :: (match g2 with
             | some g => g :: scanMoveToksF fuel rest
             | none => scanMoveToksF fuel rest)
    | none => scanMoveToksF fuel cs

/-- Result record of `parsePGN`. -/
structure ParsedPGN where
  headers : List (String × String)
  moves : List String
  deriving Repr, DecidableEq

/-- The move-section collection loop of `parsePGN`: a blank line enables
collection iff at least one header was parsed; subsequent non-blank lines are
appended as `' ' + line`. -/
def collectLines (hasHeaders : Bool) : List String → Bool × List Char → Bool × List Char
  | [], st => st
  | line :: rest, (inMoves, txt) =>
    if jsTrim line = "" then
      collectLines hasHeaders rest (if hasHeaders then (true, txt) else (inMoves, txt))
    else if inMoves then
      collectLines hasHeaders rest (true, txt ++ (' ' :: line.data))
    else
      collectLines hasHeaders rest (inMoves, txt)

/-- src/game-analyzer.js `parsePGN`. -/
def parsePGN (pgn : String) : ParsedPGN :=
  if pgn = "" then ⟨[], []⟩
  else
    let movesText :=
      (collectLines (decide ((jsHeaders pgn).length > 0)) (jsSplit pgn "\n") (false, [])).2
    let cleaned := cleanMovesText movesText
    ⟨jsHeaders pgn, scanMoveToksF cleaned.length cleaned⟩

/-! ## src/game-analyzer.js — `analyzeMoves` -/

/-- The aggregate statistics record built by `analyzeMoves`. -/
structure MoveStats where
  totalMoves : Nat
  captures : Nat
  checks : Nat
  checkmates : Nat
  castles : Nat
  pawnMoves : Nat
  pieceMoves : Nat
  queenMoves : Nat
  rookMoves : Nat
  bishopMoves : Nat
  knightMoves : Nat
  kingMoves : Nat
  promotions : Nat
  whiteMoves : List String
  blackMoves : List String
  deriving Repr, DecidableEq

/-- The zero-initialised statistics (with `totalMoves` set upfront, as in the
source). -/
def initStats (total : Nat) : MoveStats :=
  ⟨total, 0, 0, 0, 0, 0, 0, 0, 0, 0, 0, 0, 0, [], []⟩

/-- `/^[a-h]/.test(move)`. -/
def startsFile (m : String) : Bool :=
  match m.data with
  | c :: _ => 'a' ≤ c && c ≤ 'h'
  | [] => false

/-- `move.startsWith(p)`. -/
def strStarts (m p : String) : Bool :=
  p.data.isPrefixOf m.data

/-- The mutually exclusive piece classification of the `else if` chain. -/
inductive PieceKind where
  | pawn | knight | bishop | rook | queen | king | other
  deriving Repr, DecidableEq

/-- Piece identification, first match wins, as in the source chain. -/
def pieceClass (m : String) : PieceKind :=
  if startsFile m then .pawn
  else if strStarts m "N" then .knight
  else if strStarts m "B" then .bishop
  else if strStarts m "R" then .rook
  else if strStarts m "Q" then .queen
  else if strStarts m "K" then .king
  else .other

/-- One iteration of the `analyzeMoves` loop at ply index `i`.  The loop body
is a sequence of independent conditional counter increments, one partition
push, and one mutually exclusive piece-chain increment; it is recorded here
as its simultaneous net effect on the statistics record. -/
def statStep (s : MoveStats) (i : Nat) (m : String) : MoveStats :=
  { totalMoves := s.totalMoves
    captures := if strIncludes m "x" then s.captures + 1 else s.captures
    checks := if strIncludes m "+" then s.checks + 1 else s.checks
    checkmates := if strIncludes m "#" then s.checkmates + 1 else s.checkmates
    castles := if strIncludes m "O-O" then s.castles + 1 else s.castles
    promotions := if strIncludes m "=" then s.promotions + 1 else s.promotions
    pawnMoves := if pieceClass m = .pawn then s.pawnMoves + 1 else s.pawnMoves
    knightMoves := if pieceClass m = .knight then s.knightMoves + 1 else s.knightMoves
    bishopMoves := if pieceClass m = .bishop then s.bishopMoves + 1 else s.bishopMoves
    rookMoves := if pieceClass m = .rook then s.rookMoves + 1 else s.rookMoves
    queenMoves := if pieceClass m = .queen then s.queenMoves + 1 else s.queenMoves
    kingMoves := if pieceClass m = .king then s.kingMoves + 1 else s.kingMoves
    pieceMoves := s.pieceMoves
    whiteMoves := if i % 2 = 0 then s.whiteMoves ++ [m] else s.whiteMoves
    blackMoves := if i % 2 = 0 then s.blackMoves else s.blackMoves ++ [m] }

/-- The same loop body in the source's literal sequential form: the parity
push, then the five feature tests in order, then the piece chain. -/
def statStepSeq (s : MoveStats) (i : Nat) (m : String) : MoveStats :=
  let s := if i % 2 = 0 then { s with whiteMoves := s.whiteMoves ++ [m] }
           else { s with blackMoves := s.blackMoves ++ [m] }
  let s := if strIncludes m "x" then { s with captures := s.captures + 1 } else s
  let s := if strIncludes m "+" then { s with checks := s.checks + 1 } else s
  let s := if strIncludes m "#" then { s with checkmates := s.checkmates + 1 } else s
  let s := if strIncludes m "O-O" then { s with castles := s.castles + 1 } else s
  let s := if strIncludes m "=" then { s with promotions := s.promotions + 1 } else s
  match pieceClass m with
  | .pawn => { s with pawnMoves := s.pawnMoves + 1 }
  | .knight => { s with knightMoves := s.knightMoves + 1 }
  | .bishop => { s with bishopMoves := s.bishopMoves + 1 }
  | .rook => { s with rookMoves := s.rookMoves + 1 }
  | .queen => { s with queenMoves := s.queenMoves + 1 }
  | .king => { s with kingMoves := s.kingMoves + 1 }
  | .other => s

set_option maxHeartbeats 4000000 in
/-- The sequential loop body and its net-effect record agree, so `statStep`
is a faithful rendering of the source's loop. -/
theorem statStepSeq_eq (s : MoveStats) (i : Nat) (m : String) :
    statStepSeq s i m = statStep s i m := by
  cases hpc : pieceClass m <;>
    by_cases h1 : i % 2 = 0 <;> by_cases h2 : strIncludes m "x" <;>
    by_cases h3 : strIncludes m "+" <;> by_cases h4 : strIncludes m "#" <;>
    by_cases h5 : strIncludes m "O-O" <;> by_cases h6 : strIncludes m "=" <;>
    simp [statStepSeq, statStep, hpc, h1, h2, h3, h4, h5, h6]

/-- src/game-analyzer.js `analyzeMoves`. -/
def analyzeMoves (moves : List String) : MoveStats :=
  let s := (moves.enum).foldl (fun s p => statStep s p.1 p.2) (initStats moves.length)
  { s with pieceMoves :=
      s.knightMoves + s.bishopMoves + s.rookMoves + s.queenMoves + s.kingMoves }

/-! ## src/chess-fetcher.js — `splitEcoUrl` -/

/-- Result record of `splitEcoUrl`. -/
structure SplitResult where
  baseSlug : String
  extraMoves : String
  deriving Repr, DecidableEq

/-- The move alternative `O-O(?:-O)?|[a-zA-Z0-9]+` of the `with-` protection
regex: the literal alternative is tried first and `(?:-O)?` is greedy. -/
def tryWithMove (cs : List Char) : Option (List Char) :=
  if ['O', '-', 'O', '-', 'O'].isPrefixOf cs then some (cs.drop 5)
  else if ['O', '-', 'O'].isPrefixOf cs then some (cs.drop 3)
  else (span1 Char.isAlphanum cs).map (·.2)

/-- The optional `(?:-and-(\d+)-(O-O(?:-O)?|[a-zA-Z0-9]+))?` tail. -/
def tryAndPart (cs : List Char) : Option (List Char) := do
  let cs ← expectPfx ['-', 'a', 'n', 'd', '-'] cs
  let (_, cs) ← span1 Char.isDigit cs
  let cs ← expectChar '-' cs
  tryWithMove cs

/-- One attempt of the `with-` protection pattern
`with-(\d+)-(MOVE)(?:-and-(\d+)-(MOVE))?` anchored at `cs`; returns the rest
after the match.  A failing `-and-` tail never backtracks into the move. -/
def tryWithPattern (cs : List Char) : Option (List Char) := do
  let cs ← expectPfx ['w', 'i', 't', 'h', '-'] cs
  let (_, cs) ← span1 Char.isDigit cs
  let cs ← expectChar '-' cs
  let cs ← tryWithMove cs
  match tryAndPart cs with
  | some cs2 => some cs2
  | none => some cs

/-- The placeholder text `__WITH_<i>__`. -/
def placeholderStr (i : Nat) : String :=
  "__WITH_" ++ toString i ++ "__"

/-- Global replacement of the `with-` pattern by placeholders, collecting the
matched texts in order (the `withPatterns` array).  Fuel `cs.length`
suffices as every step consumes at least one character. -/
def protectWithF : Nat → List Char → List String → List Char × List String
  | 0, cs, acc => (cs, acc)
  | _, [], acc => ([], acc)
  | fuel + 1, c :: cs, acc =>
    match tryWithPattern (c :: cs) with
    | some rest =>
      let matched := (c :: cs).take ((c :: cs).length - rest.length)
      let ph := placeholderStr acc.length
      let (out, acc2) := protectWithF fuel rest (acc ++ [String.mk matched])
      (ph.data ++ out, acc2)
    | none =>
      let (out, acc2) := protectWithF fuel cs acc
      (c :: out, acc2)

/-- Does the boundary regex `-\d+\.{0,3}[a-zA-Z]|\.{3}\d+\.|\.{3}[a-zA-Z]`
match at the start of `cs`? -/
def moveBoundaryAt (cs : List Char) : Bool :=
  (match cs with
   | '-' :: rest =>
     match span1 Char.isDigit rest with
     | some (_, r) =>
       let dots := (r.takeWhile (fun c => c = '.')).length
       decide (dots ≤ 3) &&
         (match r.drop dots with
          | c :: _ => c.isAlpha
          | [] => false)
     | none => false
   | _ => false) ||
  (match cs with
   | '.' :: '.' :: '.' :: rest =>
     (match span1 Char.isDigit rest with
      | some (_, r) =>
        (match r with
         | '.' :: _ => true
         | _ => false)
      | none => false) ||
     (match rest with
      | c :: _ => c.isAlpha
      | [] => false)
   | _ => false)

/-- `slug.match(movePattern)`: index of the first boundary match, if any. -/
def findMoveIdx : List Char → Option Nat
  | [] => none
  | c :: cs =>
    if moveBoundaryAt (c :: cs) then some 0 else (findMoveIdx cs).map (· + 1)

/-- `s.replace(pat, repl)` with a plain-string pattern: first occurrence only. -/
def replaceFirst (cs pat repl : List Char) : List Char :=
  match findSubIdx pat cs with
  | some i => cs.take i ++ repl ++ cs.drop (i + pat.length)
  | none => cs

/-- The `withPatterns.forEach` restoration loop over the base slug. -/
def restorePats (cs : List Char) (pats : List String) : List Char :=
  (pats.enum).foldl (fun cs p => replaceFirst cs (placeholderStr p.1).data p.2.data) cs

/-- src/chess-fetcher.js `splitEcoUrl`. -/
def splitEcoUrl (ecoUrl : String) : SplitResult :=
  if ecoUrl = "" || !(strIncludes ecoUrl "chess.com/openings/") then ⟨"", ""⟩
  else
    let fullSlug := (jsSplit ecoUrl "/openings/").getD 1 ""
    if fullSlug = "" then ⟨"", ""⟩
    else
      let (protSlug, pats) := protectWithF fullSlug.data.length fullSlug.data []
      let (base, extra) :=
        match findMoveIdx protSlug with
        | some i => (protSlug.take i, protSlug.drop i)
        | none => (protSlug, [])
      ⟨String.mk ((restorePats base pats).map Char.toLower), String.mk extra⟩

/-! ## src/chess-fetcher.js — `formatExtraMoves` -/

/-- Full match of `/^(\d+)(\.{0,3})$/`: the digits and the dot count. -/
def numDotTok (t : String) : Option (List Char × Nat) :=
  match span1 Char.isDigit t.data with
  | none => none
  | some (ds, rest) =>
    let dots := rest.takeWhile (fun c => c = '.')
    if rest = dots && decide (dots.length ≤ 3) then some (ds, dots.length) else none

/-- Full-match test `/^\d+\.{0,3}$/` used for the lookahead checks. -/
def isNumTok (t : String) : Bool :=
  (numDotTok t).isSome

/-- The token-consuming loop of `formatExtraMoves`. -/
def fmtLoop : List String → List String
  | [] => []
  | t :: ts =>
    match numDotTok t with
    | some (num, dots) =>
      if dots = 3 then
        (String.mk num ++ "...") ::
          (match ts with
           | u :: ts2 => if !isNumTok u then u :: fmtLoop ts2 else fmtLoop (u :: ts2)
           | [] => [])
      else
        (String.mk num ++ ".") ::
          (match ts with
           | u :: ts2 =>
             if !isNumTok u then
               u :: (match ts2 with
                     | w :: ts3 => if !isNumTok w then w :: fmtLoop ts3 else fmtLoop (w :: ts3)
                     | [] => [])
             else fmtLoop (u :: ts2)
           | [] => [])
    | none => t :: fmtLoop ts

/-- src/chess-fetcher.js `formatExtraMoves`. -/
def formatExtraMoves (extraMovesSlug : String) : String :=
  if extraMovesSlug = "" || jsTrim extraMovesSlug = "" then ""
  else
    let slug := (jsTrim extraMovesSlug).data.dropWhile (fun c => c = '-' || c = '.')
    if slug.isEmpty then ""
    else
      let tokens := (jsSplit (String.mk slug) "-").filter (fun t => !(t = ""))
      if tokens.isEmpty then ""
      else String.intercalate " " (fmtLoop tokens)

/-! ## src/chess-fetcher.js — openings database and `lookupOpening` -/

/-- A cached opening entry (the object stored in the `Map`). -/
structure OpeningEntry where
  fullName : String
  slug : String
  family : String
  baseName : String
  var1 : String
  var2 : String
  var3 : String
  var4 : String
  var5 : String
  var6 : String
  deriving Repr, DecidableEq

/-- The in-memory catalog: a `Map` from trim slug to entry, modelled as an
insertion-ordered association list with unique keys. -/
abbrev Catalog := List (String × OpeningEntry)

/-- `db.get`, with `db.has db k = (dbFind db k).isSome`. -/
def dbFind (db : Catalog) (k : String) : Option OpeningEntry :=
  (db.find? (fun p => p.1 == k)).map (·.2)

/-- `slug.split('-with-')[0]`: the text before the first `-with-`, or the
whole slug when absent. -/
def sliceBeforeWith (slug : String) : String :=
  match findSubIdx ['-', 'w', 'i', 't', 'h', '-'] slug.data with
  | some i => String.mk (slug.data.take i)
  | none => slug

/-- src/chess-fetcher.js `lookupOpening`. -/
def lookupOpening (db : Catalog) (slug : String) : Option OpeningEntry :=
  match dbFind db slug with
  | some e => some e
  | none =>
    let withoutWith := sliceBeforeWith slug
    if withoutWith ≠ "" ∧ withoutWith ≠ slug then
      match dbFind db withoutWith with
      | some e => some e
      | none => none
    else none

/-- One row of the `openings` table; absent columns are `none`
(`row.x || ''` supplies the default). -/
structure OpeningRow where
  trim_slug : Option String
  full_name : Option String
  family : Option String
  base_name : Option String
  variation_1 : Option String
  variation_2 : Option String
  variation_3 : Option String
  variation_4 : Option String
  variation_5 : Option String
  variation_6 : Option String
  deriving Repr, DecidableEq

/-- The entry built from one row. -/
def entryOfRow (r : OpeningRow) (trimSlug : String) : OpeningEntry :=
  ⟨r.full_name.getD "", trimSlug, r.family.getD "", r.base_name.getD "",
   r.variation_1.getD "", r.variation_2.getD "", r.variation_3.getD "",
   r.variation_4.getD "", r.variation_5.getD "", r.variation_6.getD ""⟩

/-- The row loop of `loadOpeningsDb`: normalise the key, skip empty keys,
`cache.set` the entry. -/
def buildCatalog (rows : List OpeningRow) : Catalog :=
  rows.foldl
    (fun c r =>
      let t := String.mk ((jsTrim (r.trim_slug.getD "")).data.map Char.toLower)
      if t = "" then c else mapSet c t (entryOfRow r t))
    []

/-- The module-level mutable state `openingsCache` / `lastCacheTime`. -/
structure LoadState where
  openingsCache : Option Catalog
  lastCacheTime : Option Int
  deriving Repr, DecidableEq

/-- One `loadOpeningsDb()` call: the returned catalog, the state after the
call, and how many backing-store reads the call performed. -/
structure LoadResult where
  result : Catalog
  state : LoadState
  reads : Nat
  deriving Repr, DecidableEq

/-- `CACHE_DURATION_MS = 5 * 60 * 1000`. -/
def CACHE_DURATION_MS : Int := 5 * 60 * 1000

/-- The guard `openingsCache && lastCacheTime && (now - lastCacheTime) <
CACHE_DURATION_MS` (a stored time of `0` is falsy in JavaScript). -/
def cacheValid (s : LoadState) (now : Int) : Bool :=
  match s.openingsCache, s.lastCacheTime with
  | some _, some t => !(t = 0) && decide (now - t < CACHE_DURATION_MS)
  | _, _ => false

/-- The non-cached path: an unavailable store (missing file, open error or
query error) yields an empty catalog; otherwise every row is loaded.  Either
way the fully built catalog is installed atomically with the current time. -/
def loadFresh (now : Int) (store : Option (List OpeningRow)) : LoadResult :=
  match store with
  | none => ⟨[], ⟨some [], some now⟩, 1⟩
  | some rows =>
    let c := buildCatalog rows
    ⟨c, ⟨some c, some now⟩, 1⟩

/-- src/chess-fetcher.js `loadOpeningsDb`, as a state-transition function:
`now` is `Date.now()` and `store` is the backing store's visible content
(`none` when unavailable). -/
def loadOpeningsDb (s : LoadState) (now : Int) (store : Option (List OpeningRow)) :
    LoadResult :=
  if cacheValid s now then ⟨s.openingsCache.getD [], s, 0⟩
  else loadFresh now store

/-! ## src/chess-fetcher.js — `parseMovesAndClocks` -/

/-- `[a-h]`. -/
def isFileChar (c : Char) : Bool := 'a' ≤ c && c ≤ 'h'

/-- `[1-8]`. -/
def isRankChar (c : Char) : Bool := '1' ≤ c && c ≤ '8'

/-- `[NBRQK]`. -/
def isPieceLetter (c : Char) : Bool :=
  c = 'N' || c = 'B' || c = 'R' || c = 'Q' || c = 'K'

/-- Candidates of an optional single-character class `X?` in backtracking
order: consume first, then the empty match. -/
def optTake (f : Char → Bool) (cs : List Char) : List (List Char × List Char) :=
  match cs with
  | c :: rest => if f c then [([c], rest), ([], c :: rest)] else [([], c :: rest)]
  | [] => [([], [])]

/-- Candidates of the optional promotion suffix `(?:=[NBRQK])?`, greedy. -/
def promoCands (core : List Char) (cs : List Char) : List (List Char × List Char) :=
  match cs with
  | '=' :: q :: rest =>
    if isPieceLetter q then [(core ++ ['=', q], rest), (core, '=' :: q :: rest)]
    else [(core, '=' :: q :: rest)]
  | _ => [(core, cs)]

/-- All candidate matches, in backtracking order, of the first alternative
`[NBRQK]?[a-h]?[1-8]?x?[a-h][1-8](?:=[NBRQK])?` anchored at `cs`. -/
def pieceCands (cs : List Char) : List (List Char × List Char) :=
  (optTake isPieceLetter cs).flatMap fun pc =>
  (optTake isFileChar pc.2).flatMap fun fc =>
  (optTake isRankChar fc.2).flatMap fun rc =>
  (optTake (fun c => c = 'x') rc.2).flatMap fun xc =>
  match xc.2 with
  | f :: r :: rest =>
    if isFileChar f && isRankChar r then
      promoCands (pc.1 ++ fc.1 ++ rc.1 ++ xc.1 ++ [f, r]) rest
    else []
  | _ => []

/-- Candidate matches of the castling alternative `O-O(?:-O)?`, greedy. -/
def castleCands (cs : List Char) : List (List Char × List Char) :=
  if ['O', '-', 'O', '-', 'O'].isPrefixOf cs then
    [(['O', '-', 'O', '-', 'O'], cs.drop 5), (['O', '-', 'O'], cs.drop 3)]
  else if ['O', '-', 'O'].isPrefixOf cs then [(['O', '-', 'O'], cs.drop 3)]
  else []

/-- All candidates of the move group of the clock regex, in the order the
regex engine tries them. -/
def moveCands (cs : List Char) : List (List Char × List Char) :=
  pieceCands cs ++ castleCands cs

/-- The clock tail `\s*\{?\[%clk\s+(\d+):(\d+):(\d+)(?:\.(\d+))?\]?\}?` of the
clock regex, which is deterministic.  The source stores
`hours*3600 + minutes*60 + seconds + deciseconds/10` as a float; here the
same reading is kept exactly, scaled to tenths of a second. -/
def clockAfter (cs : List Char) : Option (Nat × List Char) := do
  let cs := cs.dropWhile isSpaceChar
  let cs := match cs with
            | '\x7b' :: r => r
            | _ => cs
  let cs ← expectPfx ['[', '%', 'c', 'l', 'k'] cs
  let (_, cs) ← span1 isSpaceChar cs
  let (h, cs) ← span1 Char.isDigit cs
  let cs ← expectChar ':' cs
  let (mi, cs) ← span1 Char.isDigit cs
  let cs ← expectChar ':' cs
  let (se, cs) ← span1 Char.isDigit cs
  let (de, cs) :=
    match cs with
    | '.' :: r =>
      match span1 Char.isDigit r with
      | some (d, r2) => (d, r2)
      | none => (([] : List Char), '.' :: r)
    | _ => (([] : List Char), cs)
  let cs := match cs with
            | ']' :: r => r
            | _ => cs
  let cs := match cs with
            | '\x7d' :: r => r
            | _ => cs
  return ((digitsToNat h * 3600 + digitsToNat mi * 60 + digitsToNat se) * 10
            + digitsToNat de, cs)

/-- One `movesData` entry: the move text and its clock reading in tenths of a
second (the source's `clockSeconds` float equals `clockTenths / 10`). -/
structure ClockEntry where
  move : String
  clockTenths : Nat
  deriving Repr, DecidableEq

/-- One attempt of the whole clock regex anchored at `cs`: the first move
candidate whose continuation parses a clock tail wins. -/
def tryClockEntry (cs : List Char) : Option (ClockEntry × List Char) :=
  (moveCands cs).findSome? fun mr =>
    (clockAfter mr.2).map fun qr => (⟨String.mk mr.1, qr.1⟩, qr.2)

/-- `exec` loop of the clock regex.  Fuel `cs.length` suffices: every match
consumes at least the two-character move core. -/
def scanClocksF : Nat → List Char → List ClockEntry
  | 0, _ => []
  | _, [] => []
  | fuel + 1, c :: cs =>
    match tryClockEntry (c :: cs) with
    | some (e, rest) => e :: scanClocksF fuel rest
    | none => scanClocksF fuel cs

/-- One attempt of the ply-counting regex `/\d+\.\s+\S+(\s+\S+)?/` anchored at
`cs`; yields the contribution `match(/\S+/g).length - 1` (1 or 2). -/
def tryPly (cs : List Char) : Option (Nat × List Char) := do
  let (_, cs) ← span1 Char.isDigit cs
  let cs ← expectChar '.' cs
  let (_, cs) ← span1 isSpaceChar cs
  let (_, cs) ← span1 (fun c => !isSpaceChar c) cs
  match (do
      let (_, r) ← span1 isSpaceChar cs
      let (_, r2) ← span1 (fun c => !isSpaceChar c) r
      return r2 : Option (List Char)) with
  | some r => return (2, r)
  | none => return (1, cs)

/-- `exec` loop of the ply-counting regex, summing the contributions. -/
def countPliesF : Nat → List Char → Nat
  | 0, _ => 0
  | _, [] => 0
  | fuel + 1, c :: cs =>
    match tryPly (c :: cs) with
    | some (n, rest) => n + countPliesF fuel rest
    | none => countPliesF fuel cs

/-- Result record of `parseMovesAndClocks` (the source serialises `movesData`
to JSON; the list itself is kept here). -/
structure ClocksResult where
  movesData : Option (List ClockEntry)
  plies : Nat
  totalMoves : Nat
  deriving Repr, DecidableEq

/-- src/chess-fetcher.js `parseMovesAndClocks`. -/
def parseMovesAndClocks (pgn : String) : ClocksResult :=
  if pgn = "" then ⟨none, 0, 0⟩
  else
    let sec := ((jsSplit pgn "\n\n").getD 1 "").data
    let plies := countPliesF sec.length sec
    ⟨some (scanClocksF sec.length sec), plies, (plies + 1) / 2⟩

/-! ## Helper lemmas -/

/-- A found occurrence of `sub` lies inside `cs`. -/
theorem findSubIdx_some_bound {sub cs : List Char} {i : Nat}
    (h : findSubIdx sub cs = some i) : i + sub.length ≤ cs.length := by
  induction cs generalizing i with
  | nil =>
    unfold findSubIdx at h
    split at h
    · next hp =>
      cases h
      simpa using List.IsPrefix.length_le (List.isPrefixOf_iff_prefix.mp hp)
    · exact absurd h (by simp)
  | cons c cs ih =>
    unfold findSubIdx at h
    split at h
    · next hp =>
      cases h
      simpa using List.IsPrefix.length_le (List.isPrefixOf_iff_prefix.mp hp)
    · simp only [List.tail_cons, Option.map_eq_some'] at h
      obtain ⟨j, hj, rfl⟩ := h
      have := ih hj
      simp only [List.length_cons]
      omega

/-- When the slug contains `-with-`, the part before it is a proper prefix,
hence a different string. -/
theorem sliceBeforeWith_ne_of_contains {slug : String}
    (h : strIncludes slug "-with-" = true) : sliceBeforeWith slug ≠ slug := by
  unfold strIncludes containsSub at h
  rw [Option.isSome_iff_exists] at h
  obtain ⟨i, hi⟩ := h
  have hb := findSubIdx_some_bound hi
  unfold sliceBeforeWith
  have : findSubIdx ['-', 'w', 'i', 't', 'h', '-'] slug.data = some i := hi
  rw [this]
  intro he
  have hd : (String.mk (slug.data.take i)).data = slug.data := congrArg String.data he
  simp only [String.data] at hd
  have : (slug.data.take i).length = slug.data.length := by rw [hd]
  simp only [List.length_take] at this
  simp only [List.length_cons, List.length_nil] at hb
  omega

/-- When the slug does not contain `-with-`, `split('-with-')[0]` is the whole
slug. -/
theorem sliceBeforeWith_eq_of_not_contains {slug : String}
    (h : strIncludes slug "-with-" = false) : sliceBeforeWith slug = slug := by
  unfold strIncludes containsSub at h
  unfold sliceBeforeWith
  cases hf : findSubIdx ['-', 'w', 'i', 't', 'h', '-'] slug.data with
  | none => rfl
  | some i => rw [hf] at h; simp at h

end Che

namespace Che

/-! ## Claim C1 -/

/-- C1, as frozen, is false on the code: for the URL
`https://www.chess.com/openings/sicilian-defense-3...Nf6`, which contains
`-3...Nf6` after the catalog path marker, the split indeed returns the
fragment `-3...Nf6`, but `formatExtraMoves` keeps `3...Nf6` as one token
(the full-match move-number test `^(\d+)(\.{0,3})$` fails on it), so the
composition yields `"3...Nf6"` and not `"3... Nf6"`. -/
theorem c1_roundtrip_counterexample :
    strIncludes "https://www.chess.com/openings/sicilian-defense-3...Nf6"
      "chess.com/openings/" = true ∧
    strIncludes "https://www.chess.com/openings/sicilian-defense-3...Nf6"
      "-3...Nf6" = true ∧
    (splitEcoUrl "https://www.chess.com/openings/sicilian-defense-3...Nf6").extraMoves
      = "-3...Nf6" ∧
    formatExtraMoves
      (splitEcoUrl "https://www.chess.com/openings/sicilian-defense-3...Nf6").extraMoves
      = "3...Nf6" ∧
    ("3...Nf6" : String) ≠ "3... Nf6" := by
  refine ⟨by decide, by decide, by decide, by decide, by decide⟩

/-- C1 (amended): for every URL whose extra-moves component produced by the
split is exactly `-3...Nf6`, applying `formatExtraMoves` to that component
yields the display string `"3...Nf6"` — the move-number marker and the move
stay one token, with no space inserted. -/
theorem c1_roundtrip_amended (url : String)
    (h : (splitEcoUrl url).extraMoves = "-3...Nf6") :
    formatExtraMoves (splitEcoUrl url).extraMoves = "3...Nf6" := by
  rw [h]
  decide

/-- C1 witness: the amended round trip at a concrete catalog URL. -/
theorem c1_roundtrip_witness :
    (splitEcoUrl "https://www.chess.com/openings/sicilian-defense-3...Nf6").extraMoves
      = "-3...Nf6" ∧
    formatExtraMoves
      (splitEcoUrl "https://www.chess.com/openings/sicilian-defense-3...Nf6").extraMoves
      = "3...Nf6" :=
  ⟨by decide, c1_roundtrip_amended _ (by decide)⟩

/-! ## Claim C2 -/

/-- C2, as frozen, is false on the code: the URL
`https://x/openings/queens-gambit-declined-with-4-nc3-and-5-bg5` does not
contain the catalog path marker `chess.com/openings/` that `splitEcoUrl`
requires, so the split returns an empty base slug rather than one containing
the `with-4-nc3-and-5-bg5` clause. -/
theorem c2_split_counterexample :
    splitEcoUrl "https://x/openings/queens-gambit-declined-with-4-nc3-and-5-bg5"
      = ⟨"", ""⟩ ∧
    strIncludes
      (splitEcoUrl "https://x/openings/queens-gambit-declined-with-4-nc3-and-5-bg5").baseSlug
      "with-4-nc3-and-5-bg5" = false := by
  refine ⟨by decide, by decide⟩

/-- C2 (amended): for the URL
`https://www.chess.com/openings/queens-gambit-declined-with-4-nc3-and-5-bg5`,
which does contain the catalog path marker, the split returns the base slug
with the whole protected `with-4-nc3-and-5-bg5` clause intact (lower-cased)
and an empty extra-moves fragment: the embedded move-like tokens are not
taken as the start of an extra-moves suffix. -/
theorem c2_split_amended :
    (splitEcoUrl
      "https://www.chess.com/openings/queens-gambit-declined-with-4-nc3-and-5-bg5").baseSlug
      = "queens-gambit-declined-with-4-nc3-and-5-bg5" ∧
    strIncludes
      (splitEcoUrl
        "https://www.chess.com/openings/queens-gambit-declined-with-4-nc3-and-5-bg5").baseSlug
      "with-4-nc3-and-5-bg5" = true ∧
    (splitEcoUrl
      "https://www.chess.com/openings/queens-gambit-declined-with-4-nc3-and-5-bg5").extraMoves
      = "" := by
  refine ⟨by decide, by decide, by decide⟩

/-! ## Claim C3 -/

/-- C3, as frozen, is false on the code at one edge: for the catalog mapping
`{"" ↦ e}` and the slug `-with-x`, the slug is not a key, it contains
`-with-`, and the portion before the first `-with-` (the empty string) is a
key — yet `lookupOpening` returns `none`, because the JavaScript truthiness
guard `withoutWith &&` rejects the empty fallback key before probing the
map. -/
theorem c3_lookup_counterexample :
    dbFind [("", ⟨"E", "", "", "", "", "", "", "", "", ""⟩)] "-with-x" = none ∧
    strIncludes "-with-x" "-with-" = true ∧
    sliceBeforeWith "-with-x" = "" ∧
    dbFind [("", ⟨"E", "", "", "", "", "", "", "", "", ""⟩)] ""
      = some ⟨"E", "", "", "", "", "", "", "", "", ""⟩ ∧
    lookupOpening [("", ⟨"E", "", "", "", "", "", "", "", "", ""⟩)] "-with-x" = none := by
  refine ⟨by decide, by decide, by decide, by decide, by decide⟩

/-- C3 (amended): for every catalog mapping and slug, `lookupOpening` returns
the entry for the slug when the slug is a key; otherwise, if the slug
contains `-with-` and the portion before the first `-with-` is nonempty, it
returns the result of looking that portion up (the entry when present,
`none` when absent), with no further fallback; otherwise it returns `none`.
In particular `italian-game-with-4-bc4` falls back to `italian-game` when the
compound key is absent, and resolves to `none` when neither key exists. -/
theorem c3_lookup_amended :
    (∀ db slug e, dbFind db slug = some e → lookupOpening db slug = some e) ∧
    (∀ db slug, dbFind db slug = none → strIncludes slug "-with-" = true →
      sliceBeforeWith slug ≠ "" →
      lookupOpening db slug = dbFind db (sliceBeforeWith slug)) ∧
    (∀ db slug, dbFind db slug = none → strIncludes slug "-with-" = false →
      lookupOpening db slug = none) ∧
    lookupOpening [("italian-game", ⟨"Italian Game", "italian-game", "Italian Game",
        "Italian Game", "", "", "", "", "", ""⟩)] "italian-game-with-4-bc4"
      = some ⟨"Italian Game", "italian-game", "Italian Game",
        "Italian Game", "", "", "", "", "", ""⟩ ∧
    lookupOpening [] "italian-game-with-4-bc4" = none := by
  refine ⟨?_, ?_, ?_, by decide, by decide⟩
  · intro db slug e h
    unfold lookupOpening
    rw [h]
  · intro db slug h hc hne
    unfold lookupOpening
    rw [h]
    simp only [ne_eq]
    rw [if_pos ⟨hne, sliceBeforeWith_ne_of_contains hc⟩]
    cases dbFind db (sliceBeforeWith slug) <;> rfl
  · intro db slug h hc
    unfold lookupOpening
    rw [h]
    have := sliceBeforeWith_eq_of_not_contains hc
    rw [if_neg (by simp [this])]

/-- C3 witness: the three branches of the amended lookup law at concrete
inputs. -/
theorem c3_lookup_witness :
    lookupOpening [("a-with-b", ⟨"A", "a-with-b", "", "", "", "", "", "", "", ""⟩)]
      "a-with-b" = some ⟨"A", "a-with-b", "", "", "", "", "", "", "", ""⟩ ∧
    lookupOpening [("italian-game", ⟨"I", "italian-game", "", "", "", "", "", "", "", ""⟩)]
      "italian-game-with-4-bc4" = dbFind
        [("italian-game", ⟨"I", "italian-game", "", "", "", "", "", "", "", ""⟩)]
        "italian-game" ∧
    lookupOpening [] "plain-slug" = none :=
  ⟨c3_lookup_amended.1 _ _ _ (by decide),
   c3_lookup_amended.2.1 _ _ (by decide) (by decide) (by decide),
   c3_lookup_amended.2.2.1 _ _ (by decide) (by decide)⟩

/-! ## Claims C4 and C10 -/

/-- When no line of the input is blank, the collection loop never turns on
and collects nothing, whatever the header count. -/
theorem collectLines_no_blank (hh : Bool) (lines : List String) (txt : List Char)
    (h : ∀ l ∈ lines, jsTrim l ≠ "") :
    collectLines hh lines (false, txt) = (false, txt) := by
  induction lines generalizing txt with
  | nil => rfl
  | cons line rest ih =>
    unfold collectLines
    rw [if_neg (h line (List.mem_cons_self line rest))]
    simpa using ih txt (fun l hl => h l (List.mem_cons_of_mem line hl))

/-- With an empty header mapping, blank lines never enable collection. -/
theorem collectLines_false (lines : List String) (txt : List Char) :
    collectLines false lines (false, txt) = (false, txt) := by
  induction lines generalizing txt with
  | nil => rfl
  | cons line rest ih =>
    unfold collectLines
    by_cases hb : jsTrim line = ""
    · rw [if_pos hb]
      simpa using ih txt
    · rw [if_neg hb]
      simpa using ih txt

/-- C4: `parsePGN` is a total function on all strings (it is a Lean `def`, so
it terminates and returns a `⟨headers, moves⟩` record on every input, the
embedding of "never throws"), and on any text with no blank line — hence no
blank-line-delimited move section — it degrades to the (possibly empty) tag
mapping produced by the header scan together with an empty move list. -/
theorem c4_parse_no_blank_line (pgn : String)
    (h : ∀ l ∈ jsSplit pgn "\n", jsTrim l ≠ "") :
    parsePGN pgn = ⟨jsHeaders pgn, []⟩ := by
  by_cases he : pgn = ""
  · subst he
    exact absurd (show jsTrim "" = "" from rfl) (h "" (by decide))
  · have hl := collectLines_no_blank
      (decide ((jsHeaders pgn).length > 0)) (jsSplit pgn "\n") [] h
    unfold parsePGN
    rw [if_neg he, hl]
    rfl

/-- C4 witness: a tagged PGN with no blank line yields the tag mapping and an
empty move list. -/
theorem c4_parse_no_blank_line_witness :
    parsePGN "[Event \"x\"]\n1. e4 e5"
      = ⟨jsHeaders "[Event \"x\"]\n1. e4 e5", []⟩ :=
  c4_parse_no_blank_line "[Event \"x\"]\n1. e4 e5" (by decide)

/-- C10: when the input contains no bracketed tag pair, the header mapping is
empty, so a blank line never enables move-text collection and the move list
is empty even if a move section follows a blank line. -/
theorem c10_headerless_no_moves (pgn : String) (h : tagMatches pgn = []) :
    (parsePGN pgn).moves = [] := by
  by_cases he : pgn = ""
  · subst he
    decide
  · have hh : jsHeaders pgn = [] := by
      unfold jsHeaders
      rw [h]
      rfl
    unfold parsePGN
    rw [if_neg he, hh]
    have hd : (decide (([] : List (String × String)).length > 0)) = false := rfl
    rw [hd, collectLines_false]
    rfl

/-- C10 witness: a headerless text with a blank line and a move section still
parses to an empty move list. -/
theorem c10_headerless_no_moves_witness :
    (parsePGN "hello\n\n1. e4 e5").moves = [] :=
  c10_headerless_no_moves "hello\n\n1. e4 e5" (by decide)

/-! ## Claims C6 and C7 -/

/-- Number of moves satisfying a textual predicate. -/
def countP (p : String → Bool) (ms : List String) : Nat :=
  (ms.filter p).length

/-- The moves at even ply index, counting from `k`. -/
def whitePliesFrom : Nat → List String → List String
  | _, [] => []
  | k, m :: ms =>
    if k % 2 = 0 then m :: whitePliesFrom (k + 1) ms else whitePliesFrom (k + 1) ms

/-- The moves at odd ply index, counting from `k`. -/
def blackPliesFrom : Nat → List String → List String
  | _, [] => []
  | k, m :: ms =>
    if k % 2 = 0 then blackPliesFrom (k + 1) ms else m :: blackPliesFrom (k + 1) ms

/-- `countP` over a cons. -/
theorem countP_cons (p : String → Bool) (m : String) (ms : List String) :
    countP p (m :: ms) = (if p m then 1 else 0) + countP p ms := by
  simp only [countP, List.filter_cons]
  split <;> simp [List.length_cons, Nat.add_comm]

/-- Record-level characterisation of the whole `analyzeMoves` fold. -/
theorem statFold_eq (ms : List String) : ∀ (k : Nat) (s : MoveStats),
    List.foldl (fun s p => statStep s p.1 p.2) s (List.enumFrom k ms) =
      { totalMoves := s.totalMoves
        captures := s.captures + countP (fun m => strIncludes m "x") ms
        checks := s.checks + countP (fun m => strIncludes m "+") ms
        checkmates := s.checkmates + countP (fun m => strIncludes m "#") ms
        castles := s.castles + countP (fun m => strIncludes m "O-O") ms
        pawnMoves := s.pawnMoves + countP (fun m => decide (pieceClass m = .pawn)) ms
        pieceMoves := s.pieceMoves
        queenMoves := s.queenMoves + countP (fun m => decide (pieceClass m = .queen)) ms
        rookMoves := s.rookMoves + countP (fun m => decide (pieceClass m = .rook)) ms
        bishopMoves := s.bishopMoves + countP (fun m => decide (pieceClass m = .bishop)) ms
        knightMoves := s.knightMoves + countP (fun m => decide (pieceClass m = .knight)) ms
        kingMoves := s.kingMoves + countP (fun m => decide (pieceClass m = .king)) ms
        promotions := s.promotions + countP (fun m => strIncludes m "=") ms
        whiteMoves := s.whiteMoves ++ whitePliesFrom k ms
        blackMoves := s.blackMoves ++ blackPliesFrom k ms } := by
  induction ms with
  | nil => intro k s; simp [countP, whitePliesFrom, blackPliesFrom]
  | cons m ms ih =>
    intro k s
    rw [show List.enumFrom k (m :: ms) = (k, m) :: List.enumFrom (k + 1) ms from rfl,
        List.foldl_cons, ih (k + 1)]
    simp only [statStep, countP_cons, whitePliesFrom, blackPliesFrom, MoveStats.mk.injEq]
    and_intros <;> (try trivial) <;> split_ifs <;>
      first
      | omega
      | simp_all [List.append_assoc]

/-- `whitePliesFrom` is the even-index subsequence of the enumerated list. -/
theorem whitePliesFrom_enum : ∀ (k : Nat) (ms : List String),
    whitePliesFrom k ms
      = ((List.enumFrom k ms).filter (fun p => decide (p.1 % 2 = 0))).map Prod.snd := by
  intro k ms
  induction ms generalizing k with
  | nil => rfl
  | cons m ms ih =>
    rw [show List.enumFrom k (m :: ms) = (k, m) :: List.enumFrom (k + 1) ms from rfl]
    by_cases hk : k % 2 = 0 <;> simp [whitePliesFrom, hk, List.filter_cons, ih]

/-- `blackPliesFrom` is the odd-index subsequence of the enumerated list. -/
theorem blackPliesFrom_enum : ∀ (k : Nat) (ms : List String),
    blackPliesFrom k ms
      = ((List.enumFrom k ms).filter (fun p => decide (p.1 % 2 = 1))).map Prod.snd := by
  intro k ms
  induction ms generalizing k with
  | nil => rfl
  | cons m ms ih =>
    rw [show List.enumFrom k (m :: ms) = (k, m) :: List.enumFrom (k + 1) ms from rfl]
    by_cases hk : k % 2 = 0
    · have hk1 : ¬k % 2 = 1 := by omega
      simp [blackPliesFrom, hk, hk1, List.filter_cons, ih]
    · have hk1 : k % 2 = 1 := by omega
      simp [blackPliesFrom, hk, hk1, List.filter_cons, ih]

/-- C7: the statistics pass partitions moves purely by ply-index parity — the
white partition is exactly the subsequence of even-index moves in order, the
black partition exactly the odd-index moves in order — and the total move
count equals the length of the move list. -/
theorem c7_parity_partition (ms : List String) :
    (analyzeMoves ms).whiteMoves
      = ((ms.enum.filter (fun p => decide (p.1 % 2 = 0))).map Prod.snd) ∧
    (analyzeMoves ms).blackMoves
      = ((ms.enum.filter (fun p => decide (p.1 % 2 = 1))).map Prod.snd) ∧
    (analyzeMoves ms).totalMoves = ms.length := by
  have h := statFold_eq ms 0 (initStats ms.length)
  simp only [analyzeMoves, show ms.enum = List.enumFrom 0 ms from rfl, h]
  exact ⟨by simp [initStats, whitePliesFrom_enum 0 ms],
         by simp [initStats, blackPliesFrom_enum 0 ms], rfl⟩

/-- C6: every feature counter of the statistics pass counts exactly the moves
passing its independent substring test, every piece counter counts exactly
the moves that the mutually exclusive first-match-wins chain assigns to that
piece, and in particular `"Nxf6+"` is counted as capture, check and knight
move (never as a pawn move) while `"e8=Q#"` is counted as promotion,
checkmate and pawn move. -/
theorem c6_move_classification :
    (∀ ms : List String,
      (analyzeMoves ms).captures = countP (fun m => strIncludes m "x") ms ∧
      (analyzeMoves ms).checks = countP (fun m => strIncludes m "+") ms ∧
      (analyzeMoves ms).checkmates = countP (fun m => strIncludes m "#") ms ∧
      (analyzeMoves ms).castles = countP (fun m => strIncludes m "O-O") ms ∧
      (analyzeMoves ms).promotions = countP (fun m => strIncludes m "=") ms ∧
      (analyzeMoves ms).pawnMoves = countP (fun m => decide (pieceClass m = .pawn)) ms ∧
      (analyzeMoves ms).knightMoves = countP (fun m => decide (pieceClass m = .knight)) ms ∧
      (analyzeMoves ms).bishopMoves = countP (fun m => decide (pieceClass m = .bishop)) ms ∧
      (analyzeMoves ms).rookMoves = countP (fun m => decide (pieceClass m = .rook)) ms ∧
      (analyzeMoves ms).queenMoves = countP (fun m => decide (pieceClass m = .queen)) ms ∧
      (analyzeMoves ms).kingMoves = countP (fun m => decide (pieceClass m = .king)) ms) ∧
    pieceClass "Nxf6+" = .knight ∧
    (analyzeMoves ["Nxf6+"]).captures = 1 ∧
    (analyzeMoves ["Nxf6+"]).checks = 1 ∧
    (analyzeMoves ["Nxf6+"]).knightMoves = 1 ∧
    (analyzeMoves ["Nxf6+"]).pawnMoves = 0 ∧
    pieceClass "e8=Q#" = .pawn ∧
    (analyzeMoves ["e8=Q#"]).promotions = 1 ∧
    (analyzeMoves ["e8=Q#"]).checkmates = 1 ∧
    (analyzeMoves ["e8=Q#"]).pawnMoves = 1 := by
  refine ⟨fun ms => ?_, by decide, by decide, by decide, by decide, by decide,
    by decide, by decide, by decide, by decide⟩
  have h := statFold_eq ms 0 (initStats ms.length)
  simp only [analyzeMoves, show ms.enum = List.enumFrom 0 ms from rfl, h]
  simp [initStats]

/-! ## Claim C5 -/

/-- `List.find?` over a cons, with the key test spelled propositionally. -/
theorem find?_cons_key {α : Type} (p : String × α) (m : List (String × α)) (q : String) :
    List.find? (fun r => r.1 == q) (p :: m)
      = if p.1 = q then some p else List.find? (fun r => r.1 == q) m := by
  by_cases h : p.1 = q
  · rw [List.find?_cons_of_pos _ (by simp [h]), if_pos h]
  · rw [List.find?_cons_of_neg _ (by simp [h]), if_neg h]

/-- `mapGet` over a cons. -/
theorem mapGet_cons {α : Type} (p : String × α) (m : List (String × α)) (q : String) :
    mapGet (p :: m) q = if p.1 = q then some p.2 else mapGet m q := by
  unfold mapGet
  rw [find?_cons_key]
  split <;> simp

/-- Lookup after a JS-object assignment: the assigned key reads the new
value, every other key is untouched. -/
theorem mapSet_get {α : Type} (m : List (String × α)) (k : String) (v : α) (q : String) :
    mapGet (mapSet m k v) q = if q = k then some v else mapGet m q := by
  induction m with
  | nil =>
    show mapGet [(k, v)] q = if q = k then some v else mapGet [] q
    rw [mapGet_cons]
    by_cases hq : q = k
    · rw [if_pos hq.symm, if_pos hq]
    · rw [if_neg (fun h => hq h.symm), if_neg hq]
  | cons p m ih =>
    by_cases hpk : p.1 = k
    · simp only [mapSet, if_pos hpk]
      rw [mapGet_cons, mapGet_cons]
      by_cases hq : q = k
      · rw [if_pos hq.symm, if_pos hq]
      · rw [if_neg (fun h => hq h.symm), if_neg hq,
            if_neg (fun h : p.1 = q => hq (h.symm.trans hpk))]
    · simp only [mapSet, if_neg hpk]
      rw [mapGet_cons, mapGet_cons]
      by_cases hpq : p.1 = q
      · rw [if_pos hpq, if_neg (fun h : q = k => hpk (hpq.trans h)), if_pos hpq]
      · rw [if_neg hpq, if_neg hpq, ih]

/-- Keys after a JS-object assignment: unchanged when the key was present,
extended by the key otherwise. -/
theorem mapSet_keys {α : Type} (m : List (String × α)) (k : String) (v : α) :
    (mapSet m k v).map Prod.fst
      = if k ∈ m.map Prod.fst then m.map Prod.fst else m.map Prod.fst ++ [k] := by
  induction m with
  | nil => simp [mapSet]
  | cons p m ih =>
    by_cases hpk : p.1 = k
    · simp [mapSet, hpk]
    · by_cases hk : k ∈ m.map Prod.fst <;>
        simp_all [mapSet, ih, List.mem_cons, Ne.symm hpk]

/-- The header fold keeps the key list duplicate-free, and its keys are the
initial keys together with the scanned tag names. -/
theorem foldTags_keys (ms : List (String × String)) : ∀ (m : List (String × String)),
    (m.map Prod.fst).Nodup →
    ((ms.foldl (fun m p => mapSet m p.1 p.2) m).map Prod.fst).Nodup ∧
    (∀ k, k ∈ (ms.foldl (fun m p => mapSet m p.1 p.2) m).map Prod.fst ↔
      (k ∈ m.map Prod.fst ∨ k ∈ ms.map Prod.fst)) := by
  induction ms with
  | nil => intro m hm; simpa using hm
  | cons p ms ih =>
    intro m hm
    rw [List.foldl_cons]
    have hkeys := mapSet_keys m p.1 p.2
    have hnd : ((mapSet m p.1 p.2).map Prod.fst).Nodup := by
      rw [hkeys]
      split
      · exact hm
      · next hnotin =>
          exact List.Nodup.append hm (List.nodup_singleton _)
            (by simpa [List.disjoint_singleton] using hnotin)
    obtain ⟨h1, h2⟩ := ih (mapSet m p.1 p.2) hnd
    refine ⟨h1, fun k => ?_⟩
    rw [h2 k, hkeys]
    by_cases hpin : p.1 ∈ m.map Prod.fst <;> by_cases hkp : k = p.1 <;>
      simp_all [List.mem_cons]

/-- The value of the last scanned occurrence of a tag name, if any. -/
def lastVal (ms : List (String × String)) (k : String) : Option String :=
  (ms.reverse.find? (fun p => p.1 == k)).map Prod.snd

/-- The header fold realises last-write-wins: a key reads the value of its
last occurrence among the scanned pairs, else whatever the initial object
held. -/
theorem foldTags_get (ms : List (String × String)) : ∀ (m : List (String × String)) (k : String),
    mapGet (ms.foldl (fun m p => mapSet m p.1 p.2) m) k
      = (lastVal ms k).or (mapGet m k) := by
  induction ms with
  | nil => intro m k; simp [lastVal, Option.or]
  | cons p ms ih =>
    intro m k
    rw [List.foldl_cons, ih (mapSet m p.1 p.2) k, mapSet_get]
    have h1 : lastVal (p :: ms) k
        = (lastVal ms k).or (if p.1 = k then some p.2 else none) := by
      unfold lastVal
      rw [show (p :: ms).reverse = ms.reverse ++ [p] from by simp, List.find?_append]
      cases hf : ms.reverse.find? (fun q => q.1 == k) with
      | some v => simp [Option.or]
      | none =>
        by_cases hp : p.1 = k
        · simp [Option.or, List.find?, hp]
        · simp [Option.or, List.find?, beq_false_of_ne hp, hp]
    rw [h1]
    cases hf : lastVal ms k with
    | some v => simp [Option.or]
    | none =>
      simp only [Option.or]
      by_cases hp : p.1 = k
      · rw [if_pos hp.symm, if_pos hp]
      · rw [if_neg (fun h : k = p.1 => hp h.symm), if_neg hp]

/-- The headers of `parsePGN` are always the header fold over the scan. -/
theorem parsePGN_headers (pgn : String) : (parsePGN pgn).headers = jsHeaders pgn := by
  by_cases he : pgn = ""
  · subst he; rfl
  · unfold parsePGN
    rw [if_neg he]

/-- `takeWhile` runs through a block of class characters and stops at the
first non-class character. -/
theorem takeWhile_append_all {f : Char → Bool} : ∀ (xs r : List Char),
    (∀ x ∈ xs, f x = true) → (∀ c, r.head? = some c → f c = false) →
    (xs ++ r).takeWhile f = xs
  | [], r, _, h3 => by
    cases r with
    | nil => rfl
    | cons c r2 => simp [List.takeWhile_cons, h3 c rfl]
  | x :: xs, r, h2, h3 => by
    simp only [List.cons_append, List.takeWhile_cons, h2 x (by simp), if_pos]
    rw [takeWhile_append_all xs r (fun y hy => h2 y (by simp [hy])) h3]

/-- The matching `dropWhile` fact. -/
theorem dropWhile_append_all {f : Char → Bool} : ∀ (xs r : List Char),
    (∀ x ∈ xs, f x = true) → (∀ c, r.head? = some c → f c = false) →
    (xs ++ r).dropWhile f = r
  | [], r, _, h3 => by
    cases r with
    | nil => rfl
    | cons c r2 => simp [List.dropWhile_cons, h3 c rfl]
  | x :: xs, r, h2, h3 => by
    simp only [List.cons_append, List.dropWhile_cons, h2 x (by simp), if_pos]
    rw [dropWhile_append_all xs r (fun y hy => h2 y (by simp [hy])) h3]

/-- `span1` consumes exactly a nonempty block of class characters when the
next character (if any) is outside the class. -/
theorem span1_exact {f : Char → Bool} (xs r : List Char)
    (h1 : xs ≠ []) (h2 : ∀ x ∈ xs, f x = true)
    (h3 : ∀ c, r.head? = some c → f c = false) :
    span1 f (xs ++ r) = some (xs, r) := by
  unfold span1
  rw [takeWhile_append_all xs r h2 h3, dropWhile_append_all xs r h2 h3]
  cases xs with
  | nil => exact absurd rfl h1
  | cons x xs => rfl

/-- The header regex consumes exactly one well-formed `[Name "Value"]`
prefix, whatever follows it. -/
theorem tryTag_render (nm v rest : List Char)
    (h1 : nm ≠ []) (h2 : ∀ c ∈ nm, isWordChar c = true)
    (h3 : v ≠ []) (h4 : ∀ c ∈ v, ¬c = '"') :
    tryTag ('[' :: (nm ++ ' ' :: '"' :: (v ++ '"' :: ']' :: rest)))
      = some ((String.mk nm, String.mk v), rest) := by
  have e1 : span1 isWordChar (nm ++ ' ' :: '"' :: (v ++ '"' :: ']' :: rest))
      = some (nm, ' ' :: '"' :: (v ++ '"' :: ']' :: rest)) :=
    span1_exact _ _ h1 h2 (by intro c hc; cases hc; decide)
  have e2 : span1 isSpaceChar (' ' :: '"' :: (v ++ '"' :: ']' :: rest))
      = some ([' '], '"' :: (v ++ '"' :: ']' :: rest)) := by
    have := span1_exact (f := isSpaceChar) [' '] ('"' :: (v ++ '"' :: ']' :: rest))
      (by simp) (by intro x hx; rw [List.mem_singleton] at hx; subst hx; decide)
      (by intro c hc; cases hc; decide)
    simpa using this
  have e3 : span1 (fun c => !(c = '"')) (v ++ '"' :: ']' :: rest)
      = some (v, '"' :: ']' :: rest) :=
    span1_exact _ _ h3 (fun c hc => by simp [h4 c hc])
      (by intro c hc; cases hc; simp)
  simp [tryTag, expectChar, e1, e2, e3]

/-- The header regex never matches at a newline. -/
theorem tryTag_newline (rest : List Char) : tryTag ('\n' :: rest) = none := by
  simp [tryTag, expectChar]

/-- A successful `span1` strictly consumes input. -/
theorem span1_length {f : Char → Bool} {cs t r : List Char}
    (h : span1 f cs = some (t, r)) : r.length < cs.length := by
  cases cs with
  | nil => simp [span1] at h
  | cons c cs2 =>
    by_cases hf : f c
    · have hr : r = List.dropWhile f cs2 := by
        simp [span1, List.takeWhile_cons, List.dropWhile_cons, hf] at h
        exact h.2.symm
      have := (List.dropWhile_sublist (l := cs2) f).length_le
      simp only [hr, List.length_cons]
      omega
    · simp [span1, List.takeWhile_cons, hf] at h

/-- A successful `expectChar` strictly consumes input. -/
theorem expectChar_length {c : Char} {cs r : List Char}
    (h : expectChar c cs = some r) : r.length < cs.length := by
  cases cs with
  | nil => simp [expectChar] at h
  | cons d cs2 =>
    by_cases hd : d = c
    · simp only [expectChar, if_pos hd, Option.some.injEq] at h
      subst h
      simp
    · simp [expectChar, hd] at h

/-- A header match strictly consumes input. -/
theorem tryTag_length {cs : List Char} {pr : (String × String) × List Char}
    (h : tryTag cs = some pr) : pr.2.length < cs.length := by
  unfold tryTag at h
  simp only [bind, Option.bind_eq_some, Option.some.injEq] at h
  obtain ⟨cs1, h1, h⟩ := h
  obtain ⟨⟨nm, cs2⟩, h2, h⟩ := h
  obtain ⟨⟨sp, cs3⟩, h3, h⟩ := h
  obtain ⟨cs4, h4, h⟩ := h
  obtain ⟨⟨v, cs5⟩, h5, h⟩ := h
  obtain ⟨cs6, h6, h⟩ := h
  obtain ⟨cs7, h7, hfin⟩ := h
  have l1 : cs1.length < cs.length := expectChar_length h1
  have l2 : cs2.length < cs1.length := by simpa using span1_length h2
  have l3 : cs3.length < cs2.length := by simpa using span1_length h3
  have l4 : cs4.length < cs3.length := by simpa using expectChar_length h4
  have l5 : cs5.length < cs4.length := by simpa using span1_length h5
  have l6 : cs6.length < cs5.length := by simpa using expectChar_length h6
  have l7 : cs7.length < cs6.length := expectChar_length h7
  simp only [Option.pure_def, Option.some.injEq] at hfin
  subst hfin
  show cs7.length < cs.length
  omega

/-- The scan is fuel-insensitive once the fuel covers the input length. -/
theorem scanTagsF_fuel : ∀ (fuel : Nat) (cs : List Char), cs.length ≤ fuel →
    scanTagsF fuel cs = scanTagsF cs.length cs := by
  intro fuel
  induction fuel using Nat.strong_induction_on with
  | _ fuel ih =>
    intro cs hle
    match fuel, cs with
    | 0, cs =>
      have : cs = [] := by
        cases cs with
        | nil => rfl
        | cons c cs2 => simp at hle
      subst this
      rfl
    | fuel + 1, [] => simp [scanTagsF]
    | fuel + 1, c :: cs =>
      simp only [List.length_cons] at hle ⊢
      cases htry : tryTag (c :: cs) with
      | some pr =>
        rcases pr with ⟨p, rest⟩
        have hlt := tryTag_length htry
        simp only [List.length_cons] at hlt
        show scanTagsF (fuel + 1) (c :: cs) = scanTagsF (cs.length + 1) (c :: cs)
        unfold scanTagsF
        simp only [htry]
        congr 1
        rw [ih fuel (by omega) rest (by omega),
            ih cs.length (by omega) rest (by omega)]
      | none =>
        show scanTagsF (fuel + 1) (c :: cs) = scanTagsF (cs.length + 1) (c :: cs)
        unfold scanTagsF
        simp only [htry]
        exact ih fuel (by omega) cs (by omega)

/-- One rendered header line `[Name "Value"]` with its newline. -/
def renderTagLine (p : String × String) : String :=
  "[" ++ p.1 ++ " \"" ++ p.2 ++ "\"]\n"

/-- A well-formed header text: the given tag pairs, one bracketed line each. -/
def renderHeaders (ps : List (String × String)) : String :=
  String.mk (ps.map (fun p => (renderTagLine p).data)).flatten

/-- A well-formed tag pair: a nonempty word-character name and a nonempty
quote-free value, as the shape `[Name "Value"]` requires. -/
def wellFormedTag (p : String × String) : Prop :=
  p.1.data ≠ [] ∧ (∀ c ∈ p.1.data, isWordChar c = true) ∧
  p.2.data ≠ [] ∧ (∀ c ∈ p.2.data, ¬c = '"')

/-- On a well-formed header text the scan recovers exactly the tag pairs:
the tag names occurring in the text are the matched names. -/
theorem tagMatches_render : ∀ (ps : List (String × String)),
    (∀ p ∈ ps, wellFormedTag p) → tagMatches (renderHeaders ps) = ps := by
  intro ps
  induction ps with
  | nil => intro _; rfl
  | cons p ps ih =>
    intro hwf
    obtain ⟨h1, h2, h3, h4⟩ := hwf p (by simp)
    have hdata : (renderHeaders (p :: ps)).data
        = '[' :: (p.1.data ++ ' ' :: '"' ::
            (p.2.data ++ '"' :: ']' :: '\n' :: (renderHeaders ps).data)) := by
      simp [renderHeaders, renderTagLine]
    unfold tagMatches
    rw [hdata]
    show scanTagsF ((p.1.data ++ ' ' :: '"' ::
        (p.2.data ++ '"' :: ']' :: '\n' :: (renderHeaders ps).data)).length + 1) _ = _
    unfold scanTagsF
    simp only [tryTag_render p.1.data p.2.data ('\n' :: (renderHeaders ps).data) h1 h2 h3 h4]
    have hfe : scanTagsF (p.1.data ++ ' ' :: '"' ::
          (p.2.data ++ '"' :: ']' :: '\n' :: (renderHeaders ps).data)).length
          ('\n' :: (renderHeaders ps).data)
        = scanTagsF ((renderHeaders ps).data.length + 1)
          ('\n' :: (renderHeaders ps).data) := by
      rw [show ((renderHeaders ps).data.length + 1)
            = ('\n' :: (renderHeaders ps).data).length from rfl]
      exact scanTagsF_fuel _ _ (by simp [List.length_append]; omega)
    rw [hfe]
    unfold scanTagsF
    simp only [tryTag_newline]
    have hh : scanTagsF (renderHeaders ps).data.length (renderHeaders ps).data
        = tagMatches (renderHeaders ps) := rfl
    rw [hh, ih (fun q hq => hwf q (by simp [hq]))]

/-- C5: the tag mapping built by `parsePGN` has exactly one entry per
distinct tag name occurring (as a header-regex match) in the text, a tag
name reads the value of its last occurrence — last write wins — and on a
well-formed text whose header lines are bracket-delimited `[Name "Value"]`
pairs the matches are exactly those pairs, so the mapping size equals the
number of distinct tag names in the text. -/
theorem c5_tag_mapping :
    (∀ pgn : String,
      (parsePGN pgn).headers.length = ((tagMatches pgn).map Prod.fst).toFinset.card ∧
      (∀ n, mapGet (parsePGN pgn).headers n = lastVal (tagMatches pgn) n)) ∧
    (∀ ps : List (String × String), (∀ p ∈ ps, wellFormedTag p) →
      tagMatches (renderHeaders ps) = ps) := by
  refine ⟨fun pgn => ?_, tagMatches_render⟩
  rw [parsePGN_headers]
  constructor
  · obtain ⟨hnd, hmem⟩ := foldTags_keys (tagMatches pgn) [] (by simp)
    unfold jsHeaders
    have hlen : (List.foldl (fun m p => mapSet m p.1 p.2) [] (tagMatches pgn)).length
        = ((List.foldl (fun m p => mapSet m p.1 p.2) [] (tagMatches pgn)).map
            Prod.fst).length := by simp
    rw [hlen, ← List.toFinset_card_of_nodup hnd]
    congr 1
    ext k
    simp only [List.mem_toFinset]
    rw [hmem k]
    simp
  · intro n
    unfold jsHeaders
    rw [foldTags_get (tagMatches pgn) [] n]
    cases lastVal (tagMatches pgn) n <;> rfl

/-- C5 witness: the scan of a concrete well-formed header text (with a
duplicated tag name) is exactly its pair list. -/
theorem c5_tag_mapping_witness :
    tagMatches (renderHeaders [("Event", "F1"), ("Round", "1"), ("Event", "F2")])
      = [("Event", "F1"), ("Round", "1"), ("Event", "F2")] :=
  c5_tag_mapping.2 [("Event", "F1"), ("Round", "1"), ("Event", "F2")]
    (by unfold wellFormedTag; decide)

/-! ## Claim C8 -/

/-- A state just written by a completed load at a positive time is valid for
any second call within the cache window. -/
theorem cacheValid_after_load (c : Catalog) (n1 n2 : Int)
    (h0 : 0 < n1) (hw : n2 - n1 < CACHE_DURATION_MS) :
    cacheValid ⟨some c, some n1⟩ n2 = true := by
  simp only [cacheValid, Bool.and_eq_true, Bool.not_eq_true', decide_eq_true_eq,
    decide_eq_false_iff_not, CACHE_DURATION_MS] at *
  omega

/-- A state written at `n1` is stale once the window has elapsed. -/
theorem cacheStale_after_window (c : Catalog) (n1 n2 : Int)
    (hw : CACHE_DURATION_MS ≤ n2 - n1) :
    cacheValid ⟨some c, some n1⟩ n2 = false := by
  simp only [cacheValid, Bool.and_eq_false_iff, Bool.not_eq_false', decide_eq_true_eq,
    decide_eq_false_iff_not, CACHE_DURATION_MS] at *
  omega

/-- C8: the cache protocol of `loadOpeningsDb`.  A valid cache is returned
as-is with no backing-store read; after a completed (cache-missing) load at a
positive time, any call within the 5-minute window returns the very same
mapping with zero reads; a call after the window elapses performs exactly one
re-read; a cache-missing call against an unavailable store returns and caches
the empty mapping; and every call returns either the previously cached
mapping, the empty mapping, or the fully built new mapping — never a partial
one. -/
theorem c8_cache_behaviour :
    (∀ s now store, cacheValid s now = true →
      loadOpeningsDb s now store = ⟨s.openingsCache.getD [], s, 0⟩) ∧
    (∀ s n1 st1 n2 st2, cacheValid s n1 = false → 0 < n1 →
      n2 - n1 < CACHE_DURATION_MS →
      (loadOpeningsDb (loadOpeningsDb s n1 st1).state n2 st2).result
          = (loadOpeningsDb s n1 st1).result ∧
      (loadOpeningsDb (loadOpeningsDb s n1 st1).state n2 st2).reads = 0) ∧
    (∀ s n1 st1 n2 st2, cacheValid s n1 = false → CACHE_DURATION_MS ≤ n2 - n1 →
      (loadOpeningsDb (loadOpeningsDb s n1 st1).state n2 st2).reads = 1) ∧
    (∀ s now, cacheValid s now = false →
      loadOpeningsDb s now none = ⟨[], ⟨some [], some now⟩, 1⟩) ∧
    (∀ s now store, (loadOpeningsDb s now store).result = s.openingsCache.getD [] ∨
      (loadOpeningsDb s now store).result = (store.map buildCatalog).getD []) := by
  refine ⟨?_, ?_, ?_, ?_, ?_⟩
  · intro s now store h
    unfold loadOpeningsDb
    rw [if_pos h]
  · intro s n1 st1 n2 st2 hm h0 hw
    have h1 : loadOpeningsDb s n1 st1 = loadFresh n1 st1 := by
      unfold loadOpeningsDb
      rw [if_neg (by simp [hm])]
    rw [h1]
    cases st1 with
    | none =>
      simp only [loadFresh]
      unfold loadOpeningsDb
      rw [if_pos (cacheValid_after_load [] n1 n2 h0 hw)]
      exact ⟨rfl, rfl⟩
    | some rows =>
      simp only [loadFresh]
      unfold loadOpeningsDb
      rw [if_pos (cacheValid_after_load (buildCatalog rows) n1 n2 h0 hw)]
      exact ⟨rfl, rfl⟩
  · intro s n1 st1 n2 st2 hm hw
    have h1 : loadOpeningsDb s n1 st1 = loadFresh n1 st1 := by
      unfold loadOpeningsDb
      rw [if_neg (by simp [hm])]
    rw [h1]
    cases st1 with
    | none =>
      simp only [loadFresh]
      unfold loadOpeningsDb
      rw [if_neg (by simp [cacheStale_after_window [] n1 n2 hw])]
      cases st2 <;> rfl
    | some rows =>
      simp only [loadFresh]
      unfold loadOpeningsDb
      rw [if_neg (by simp [cacheStale_after_window (buildCatalog rows) n1 n2 hw])]
      cases st2 <;> rfl
  · intro s now hm
    unfold loadOpeningsDb
    rw [if_neg (by simp [hm])]
    rfl
  · intro s now store
    unfold loadOpeningsDb
    by_cases hv : cacheValid s now = true
    · rw [if_pos hv]
      exact Or.inl rfl
    · rw [if_neg hv]
      cases store <;> exact Or.inr rfl

/-- C8 witness: the cache scenarios at concrete states, times and stores. -/
theorem c8_cache_behaviour_witness :
    loadOpeningsDb ⟨some [], some 5⟩ 6 none = ⟨[], ⟨some [], some 5⟩, 0⟩ ∧
    (loadOpeningsDb (loadOpeningsDb ⟨none, none⟩ 1000 (some [])).state 2000 none).result
        = (loadOpeningsDb ⟨none, none⟩ 1000 (some [])).result ∧
    (loadOpeningsDb (loadOpeningsDb ⟨none, none⟩ 1000 (some [])).state 2000 none).reads = 0 ∧
    (loadOpeningsDb (loadOpeningsDb ⟨none, none⟩ 1000 (some [])).state 400000 none).reads = 1 ∧
    loadOpeningsDb ⟨none, none⟩ 1000 none = ⟨[], ⟨some [], some 1000⟩, 1⟩ :=
  ⟨c8_cache_behaviour.1 _ 6 none (by decide),
   (c8_cache_behaviour.2.1 _ 1000 _ 2000 _ (by decide) (by decide) (by decide)).1,
   (c8_cache_behaviour.2.1 _ 1000 _ 2000 _ (by decide) (by decide) (by decide)).2,
   c8_cache_behaviour.2.2.1 _ 1000 _ 400000 _ (by decide) (by decide),
   c8_cache_behaviour.2.2.2.1 _ 1000 (by decide)⟩

/-! ## Claim C9 -/

/-- An optional single character from a class, as the regex `X?` denotes. -/
def optList (f : Char → Bool) (l : List Char) : Prop :=
  l = [] ∨ ∃ c, l = [c] ∧ f c = true

/-- The restricted move shape of the clock regex's move group:
`[NBRQK]?[a-h]?[1-8]?x?[a-h][1-8](?:=[NBRQK])?` or castling `O-O`/`O-O-O`. -/
def moveShapeOK (s : String) : Prop :=
  s = "O-O" ∨ s = "O-O-O" ∨
  ∃ (p fo ro xo : List Char) (f r : Char) (pr : List Char),
    s.data = p ++ fo ++ ro ++ xo ++ [f, r] ++ pr ∧
    optList isPieceLetter p ∧ optList isFileChar fo ∧ optList isRankChar ro ∧
    (xo = [] ∨ xo = ['x']) ∧ isFileChar f = true ∧ isRankChar r = true ∧
    (pr = [] ∨ ∃ q, pr = ['=', q] ∧ isPieceLetter q = true)

/-- Inversion for `optTake`: the consumed part is empty or one class char. -/
theorem optTake_mem {f : Char → Bool} {cs : List Char} {pr : List Char × List Char}
    (h : pr ∈ optTake f cs) :
    (pr.1 = [] ∧ pr.2 = cs) ∨
    (∃ c cs2, cs = c :: cs2 ∧ f c = true ∧ pr.1 = [c] ∧ pr.2 = cs2) := by
  cases cs with
  | nil =>
    simp only [optTake, List.mem_singleton] at h
    exact Or.inl (by simp [h])
  | cons c cs2 =>
    simp only [optTake] at h
    by_cases hf : f c
    · rw [if_pos hf] at h
      simp only [List.mem_cons, List.mem_singleton, List.not_mem_nil, or_false] at h
      rcases h with h | h
      · exact Or.inr ⟨c, cs2, rfl, hf, by simp [h], by simp [h]⟩
      · exact Or.inl (by simp [h])
    · rw [if_neg hf] at h
      simp only [List.mem_singleton] at h
      exact Or.inl (by simp [h])

/-- Inversion for `promoCands`: the move is the core, possibly with `=Q`. -/
theorem promoCands_mem {core cs : List Char} {m r : List Char}
    (h : (m, r) ∈ promoCands core cs) :
    m = core ∨ ∃ q, m = core ++ ['=', q] ∧ isPieceLetter q = true := by
  unfold promoCands at h
  split at h
  · next q rest =>
    split at h
    · next hq =>
      simp only [List.mem_cons, List.mem_singleton, List.not_mem_nil, or_false,
        Prod.mk.injEq] at h
      rcases h with ⟨h1, _⟩ | ⟨h1, _⟩
      · exact Or.inr ⟨q, h1, hq⟩
      · exact Or.inl h1
    · simp only [List.mem_singleton, Prod.mk.injEq] at h
      exact Or.inl h.1
  · simp only [List.mem_singleton, Prod.mk.injEq] at h
    exact Or.inl h.1

/-- Every candidate of the piece-move alternative decomposes along the
regex's optional components. -/
theorem pieceCands_shape {cs : List Char} {m r : List Char}
    (h : (m, r) ∈ pieceCands cs) :
    ∃ (p fo ro xo : List Char) (f rk : Char) (pr : List Char),
      m = p ++ fo ++ ro ++ xo ++ [f, rk] ++ pr ∧
      optList isPieceLetter p ∧ optList isFileChar fo ∧ optList isRankChar ro ∧
      (xo = [] ∨ xo = ['x']) ∧ isFileChar f = true ∧ isRankChar rk = true ∧
      (pr = [] ∨ ∃ q, pr = ['=', q] ∧ isPieceLetter q = true) := by
  unfold pieceCands at h
  rw [List.mem_flatMap] at h
  obtain ⟨pc, hpc, h⟩ := h
  rw [List.mem_flatMap] at h
  obtain ⟨fc, hfc, h⟩ := h
  rw [List.mem_flatMap] at h
  obtain ⟨rc, hrc, h⟩ := h
  rw [List.mem_flatMap] at h
  obtain ⟨xc, hxc, h⟩ := h
  split at h
  · next f rk rest _ =>
    split at h
    · next hfr =>
      rw [Bool.and_eq_true] at hfr
      have hm := promoCands_mem h
      have e1 : optList isPieceLetter pc.1 := by
        rcases optTake_mem hpc with ⟨h1, _⟩ | ⟨c, cs2, _, hc, h1, _⟩
        · exact Or.inl h1
        · exact Or.inr ⟨c, h1, hc⟩
      have e2 : optList isFileChar fc.1 := by
        rcases optTake_mem hfc with ⟨h1, _⟩ | ⟨c, cs2, _, hc, h1, _⟩
        · exact Or.inl h1
        · exact Or.inr ⟨c, h1, hc⟩
      have e3 : optList isRankChar rc.1 := by
        rcases optTake_mem hrc with ⟨h1, _⟩ | ⟨c, cs2, _, hc, h1, _⟩
        · exact Or.inl h1
        · exact Or.inr ⟨c, h1, hc⟩
      have e4 : xc.1 = [] ∨ xc.1 = ['x'] := by
        rcases optTake_mem hxc with ⟨h1, _⟩ | ⟨c, cs2, _, hc, h1, _⟩
        · exact Or.inl h1
        · right
          rw [h1]
          simp only [decide_eq_true_eq] at hc
          rw [hc]
      rcases hm with hm | ⟨q, hm, hq⟩
      · exact ⟨pc.1, fc.1, rc.1, xc.1, f, rk, [], by simpa using hm,
          e1, e2, e3, e4, hfr.1, hfr.2, Or.inl rfl⟩
      · exact ⟨pc.1, fc.1, rc.1, xc.1, f, rk, ['=', q], by simpa using hm,
          e1, e2, e3, e4, hfr.1, hfr.2, Or.inr ⟨q, rfl, hq⟩⟩
    · simp at h
  · simp at h

/-- Every candidate of the castling alternative is `O-O` or `O-O-O`. -/
theorem castleCands_shape {cs : List Char} {m r : List Char}
    (h : (m, r) ∈ castleCands cs) :
    m = ['O', '-', 'O'] ∨ m = ['O', '-', 'O', '-', 'O'] := by
  unfold castleCands at h
  split at h
  · simp only [List.mem_cons, List.mem_singleton, List.not_mem_nil, or_false,
      Prod.mk.injEq] at h
    rcases h with ⟨h1, _⟩ | ⟨h1, _⟩
    · exact Or.inr h1
    · exact Or.inl h1
  · split at h
    · simp only [List.mem_singleton, Prod.mk.injEq] at h
      exact Or.inl h.1
    · simp at h

/-- Class characters are never `+` or `#`. -/
theorem pieceLetter_ne {c : Char} (h : isPieceLetter c = true) : c ≠ '+' ∧ c ≠ '#' := by
  constructor <;> rintro rfl <;> exact absurd h (by decide)

/-- File characters are never `+` or `#`. -/
theorem fileChar_ne {c : Char} (h : isFileChar c = true) : c ≠ '+' ∧ c ≠ '#' := by
  constructor <;> rintro rfl <;> exact absurd h (by decide)

/-- Rank characters are never `+` or `#`. -/
theorem rankChar_ne {c : Char} (h : isRankChar c = true) : c ≠ '+' ∧ c ≠ '#' := by
  constructor <;> rintro rfl <;> exact absurd h (by decide)

/-- Every move candidate of the clock regex matches the restricted move shape
and contains neither `+` nor `#`. -/
theorem moveCands_shape {cs : List Char} {m r : List Char}
    (h : (m, r) ∈ moveCands cs) :
    moveShapeOK (String.mk m) ∧ '+' ∉ m ∧ '#' ∉ m := by
  unfold moveCands at h
  rcases List.mem_append.mp h with h | h
  · obtain ⟨p, fo, ro, xo, f, rk, pr, hm, e1, e2, e3, e4, hf, hr, e5⟩ := pieceCands_shape h
    refine ⟨Or.inr (Or.inr ⟨p, fo, ro, xo, f, rk, pr, by simpa using hm,
      e1, e2, e3, e4, hf, hr, e5⟩), ?_, ?_⟩ <;>
    · subst hm
      intro hmem
      simp only [List.mem_append, List.mem_cons, List.not_mem_nil, or_false] at hmem
      rcases hmem with ((((hp | hfo) | hro) | hxo) | hc | hc) | hpr
      · rcases e1 with rfl | ⟨c, rfl, hc⟩
        · simp at hp
        · rw [List.mem_singleton] at hp
          rcases pieceLetter_ne hc with ⟨h1, h2⟩
          subst hp
          first | exact h1 rfl | exact h2 rfl
      · rcases e2 with rfl | ⟨c, rfl, hc⟩
        · simp at hfo
        · rw [List.mem_singleton] at hfo
          rcases fileChar_ne hc with ⟨h1, h2⟩
          subst hfo
          first | exact h1 rfl | exact h2 rfl
      · rcases e3 with rfl | ⟨c, rfl, hc⟩
        · simp at hro
        · rw [List.mem_singleton] at hro
          rcases rankChar_ne hc with ⟨h1, h2⟩
          subst hro
          first | exact h1 rfl | exact h2 rfl
      · rcases e4 with rfl | rfl
        · simp at hxo
        · rw [List.mem_singleton] at hxo
          simp at hxo
      · rcases fileChar_ne hf with ⟨h1, h2⟩
        first | exact h1 hc.symm | exact h2 hc.symm
      · rcases rankChar_ne hr with ⟨h1, h2⟩
        first | exact h1 hc.symm | exact h2 hc.symm
      · rcases e5 with rfl | ⟨q, rfl, hq⟩
        · simp at hpr
        · simp only [List.mem_cons, List.mem_singleton, List.not_mem_nil, or_false] at hpr
          rcases hpr with hpr | hpr
          · simp at hpr
          · rcases pieceLetter_ne hq with ⟨h1, h2⟩
            subst hpr
            first | exact h1 rfl | exact h2 rfl
  · rcases castleCands_shape h with rfl | rfl
    · exact ⟨Or.inl rfl, by decide, by decide⟩
    · exact ⟨Or.inr (Or.inl rfl), by decide, by decide⟩

/-- Every emitted clock entry's move satisfies the restricted shape. -/
theorem tryClockEntry_shape {cs : List Char} {e : ClockEntry} {rest : List Char}
    (h : tryClockEntry cs = some (e, rest)) :
    moveShapeOK e.move ∧ '+' ∉ e.move.data ∧ '#' ∉ e.move.data := by
  unfold tryClockEntry at h
  obtain ⟨⟨m, r⟩, hmem, hf⟩ := List.exists_of_findSome?_eq_some h
  rw [Option.map_eq_some'] at hf
  obtain ⟨⟨q, r2⟩, _, he⟩ := hf
  cases he
  exact moveCands_shape hmem

/-- The scan only ever emits entries produced by `tryClockEntry`. -/
theorem scanClocksF_shape : ∀ (fuel : Nat) (cs : List Char) (e : ClockEntry),
    e ∈ scanClocksF fuel cs →
    moveShapeOK e.move ∧ '+' ∉ e.move.data ∧ '#' ∉ e.move.data := by
  intro fuel
  induction fuel with
  | zero => intro cs e h; simp [scanClocksF] at h
  | succ fuel ih =>
    intro cs e h
    cases cs with
    | nil => simp [scanClocksF] at h
    | cons c cs2 =>
      unfold scanClocksF at h
      cases htry : tryClockEntry (c :: cs2) with
      | some pr =>
        rcases pr with ⟨e0, rest⟩
        rw [htry] at h
        rcases List.mem_cons.mp h with rfl | h2
        · exact tryClockEntry_shape htry
        · exact ih rest e h2
      | none =>
        rw [htry] at h
        exact ih cs2 e h

/-- C9: the clock-extraction pass pairs a clock only with moves matching the
restricted shape `[NBRQK]?[a-h]?[1-8]?x?[a-h][1-8](=[NBRQK])?` or castling,
so no emitted move carries `+` or `#`; concretely, in a move section where
`Nxf6+` and `e8=Q#` are each immediately followed by a `[%clk ...]`
annotation, only the plain `e4` receives a clock entry — the checked and
mating moves are silently absent. -/
theorem c9_clock_pairing :
    (∀ (pgn : String) (l : List ClockEntry) (e : ClockEntry),
      (parseMovesAndClocks pgn).movesData = some l → e ∈ l →
      moveShapeOK e.move ∧ '+' ∉ e.move.data ∧ '#' ∉ e.move.data) ∧
    parseMovesAndClocks
      "[Event \"t\"]\n\n1. e4 \x7b[%clk 0:01:00]\x7d Nxf6+ \x7b[%clk 0:00:05]\x7d e8=Q# \x7b[%clk 0:00:02]\x7d"
      = ⟨some [⟨"e4", 600⟩], 2, 1⟩ := by
  constructor
  · intro pgn l e hl he
    unfold parseMovesAndClocks at hl
    split at hl
    · simp at hl
    · simp only [Option.some.injEq] at hl
      subst hl
      exact scanClocksF_shape _ _ e he
  · decide

/-- C9 witness: the shape guarantee applied to the concrete emitted entry. -/
theorem c9_clock_pairing_witness :
    moveShapeOK ("e4" : String) ∧ '+' ∉ ("e4" : String).data ∧ '#' ∉ ("e4" : String).data :=
  c9_clock_pairing.1
    "[Event \"t\"]\n\n1. e4 \x7b[%clk 0:01:00]\x7d Nxf6+ \x7b[%clk 0:00:05]\x7d e8=Q# \x7b[%clk 0:00:02]\x7d"
    [⟨"e4", 600⟩] ⟨"e4", 600⟩ (by decide) (by decide)

end Che
